import Mathlib

/-!
Verification of the gomoku repository (connect-five game engine).

The main engine lives in `gmk-claude-opus-4.1-08052025.cpp`:
`Board` (grid + move history + move counter), `PatternEvaluator`
(line-pattern scoring), `GomokuAI` (minimax with alpha-beta pruning and
move ordering).  A second variant (`src/unnamed/part_000`, the
`GomokuGame` class) supplies the local win check `checkWin` cited by the
spec as `check_win_through`.

Machine integers are modelled as `Int` (all quantities stay far below
2^31, so C++ `int` arithmetic never overflows and agrees with `Int`).
Mutation is modelled by explicit state passing: each C++ method that
mutates the `Board` becomes a Lean function returning the new board.
-/

/-- Stone = tri-state cell value, `enum class Stone { EMPTY, BLACK, WHITE }`. -/
inductive Stone
  | EMPTY
  | BLACK
  | WHITE
deriving DecidableEq, Repr

/-- GameStatus, `enum class GameStatus { ONGOING, BLACK_WIN, WHITE_WIN, DRAW }`. -/
inductive GameStatus
  | ONGOING
  | BLACK_WIN
  | WHITE_WIN
  | DRAW
deriving DecidableEq, Repr

/-- A coordinate pair, `class Position { int row, col; }`. -/
abbrev Pos := Int × Int

/-- BOARD_SIZE = 15. -/
def BOARD_SIZE : Int := 15

/-- WIN_LENGTH = 5. -/
def WIN_LENGTH : Int := 5

/-- The four direction vectors of `DIRECTIONS` (horizontal, vertical, two diagonals). -/
def DIRECTIONS : List (Int × Int) := [(0, 1), (1, 0), (1, 1), (1, -1)]

/-- Board state: the cell grid (total function; the C++ array is only read
in-range), the move history and the move counter, mirroring `class Board`. -/
structure Board where
  grid : Int → Int → Stone
  moveHistory : List Pos
  moveCount : Int

/-- The freshly constructed board: all cells EMPTY, no history, counter 0. -/
def emptyBoard : Board :=
  { grid := fun _ _ => Stone.EMPTY, moveHistory := [], moveCount := 0 }

/-- Board::getStone - bounds-checked read, EMPTY when out of range. -/
def getStone (b : Board) (row col : Int) : Stone :=
  if row < 0 ∨ BOARD_SIZE ≤ row ∨ col < 0 ∨ BOARD_SIZE ≤ col then Stone.EMPTY
  else b.grid row col

/-- Board::isValidMove - in range and target EMPTY. -/
def isValidMove (b : Board) (row col : Int) : Bool :=
  decide (0 ≤ row ∧ row < BOARD_SIZE ∧ 0 ≤ col ∧ col < BOARD_SIZE
    ∧ b.grid row col = Stone.EMPTY)

/-- Board::placeStone - on a valid target sets the cell, appends to the
history and increments the counter; otherwise fails without mutation. -/
def placeStone (b : Board) (row col : Int) (stone : Stone) : Bool × Board :=
  if isValidMove b row col then
    (true,
      { grid := fun r c => if r = row ∧ c = col then stone else b.grid r c,
        moveHistory := b.moveHistory ++ [(row, col)],
        moveCount := b.moveCount + 1 })
  else (false, b)

/-- Board::removeStone - unconditionally clears the cell; pops the history
and decrements the counter only when the history is non-empty. -/
def removeStone (b : Board) (row col : Int) : Board :=
  { grid := fun r c => if r = row ∧ c = col then Stone.EMPTY else b.grid r c,
    moveHistory := if b.moveHistory = [] then b.moveHistory else b.moveHistory.dropLast,
    moveCount := if b.moveHistory = [] then b.moveCount else b.moveCount - 1 }

/-- Board::isFull - counter reached BOARD_SIZE². -/
def isFull (b : Board) : Bool :=
  decide (BOARD_SIZE * BOARD_SIZE ≤ b.moveCount)

/-- Integer for-loop range: the values taken by `for (int i = lo; i <= hi; i++)`. -/
def intRange (lo hi : Int) : List Int :=
  (List.range (hi + 1 - lo).toNat).map (fun (i : Nat) => lo + (i : Int))

/-- The row-major scan order of the nested `for (r) for (c)` loops over the grid. -/
def scanCells : List Pos :=
  (intRange 0 (BOARD_SIZE - 1)).flatMap (fun r =>
    (intRange 0 (BOARD_SIZE - 1)).map (fun c => (r, c)))

/-- The inner counting loop of `Board::checkWin`:
`for (i = 1; i < WIN_LENGTH; i++) { if (getStone(...) != stone) break; count++; }`.
`fuel` is the number of remaining iterations (4 at the top call). -/
def runFrom (b : Board) (stone : Stone) (r c dr dc : Int) : Nat → Nat
  | 0 => 0
  | fuel + 1 =>
    if getStone b (r + dr) (c + dc) = stone then
      runFrom b stone (r + dr) (c + dc) dr dc fuel + 1
    else 0

/-- One cell of the `Board::checkWin` scan: the win reported through this
cell, if any. -/
def cellWin (b : Board) (r c : Int) : Option GameStatus :=
  let stone := b.grid r c
  if stone = Stone.EMPTY then none
  else if DIRECTIONS.any (fun d => decide (5 ≤ 1 + runFrom b stone r c d.1 d.2 4)) then
    some (if stone = Stone.BLACK then GameStatus.BLACK_WIN else GameStatus.WHITE_WIN)
  else none

/-- Board::checkWin - full-board scan for a five-in-a-row; DRAW on a full
board without one, else ONGOING. -/
def checkWin (b : Board) : GameStatus :=
  match scanCells.findSome? (fun p => cellWin b p.1 p.2) with
  | some st => st
  | none => if isFull b then GameStatus.DRAW else GameStatus.ONGOING

/-- The offsets visited by `for (dr = -range..range) for (dc = -range..range)`. -/
def neighborOffsets (range : Int) : List (Int × Int) :=
  (intRange (-range) range).flatMap (fun dr =>
    (intRange (-range) range).map (fun dc => (dr, dc)))

/-- The inner neighbor scan of `Board::getRelevantMoves` around one occupied
cell.  The C++ `considered[nr][nc]` flag is set exactly when a cell is pushed
onto `moves`, so it is equivalently membership in the accumulated list. -/
def addNeighbors (b : Board) (range r c : Int) (acc : List Pos) : List Pos :=
  (neighborOffsets range).foldl
    (fun acc' d =>
      let nr := r + d.1
      let nc := c + d.2
      if isValidMove b nr nc ∧ (nr, nc) ∉ acc' then acc' ++ [(nr, nc)] else acc')
    acc

/-- Board::getRelevantMoves - the candidate generator: center cell on an
empty board, otherwise the empty cells near occupied ones. -/
def getRelevantMoves (b : Board) (range : Int) : List Pos :=
  if b.moveCount = 0 then [(BOARD_SIZE / 2, BOARD_SIZE / 2)]
  else
    scanCells.foldl
      (fun acc p => if b.grid p.1 p.2 ≠ Stone.EMPTY then addNeighbors b range p.1 p.2 acc else acc)
      []

/-- Line-pattern summary, `struct LinePattern { int consecutive, openEnds, gaps; }`. -/
structure LinePattern where
  consecutive : Int
  openEnds : Int
  gaps : Int
deriving DecidableEq, Repr

/-- The per-direction loop body of `PatternEvaluator::analyzeLine`
(`for (i = 1; i < WIN_LENGTH; i++)` with its three-way branch and breaks).
Arguments after `fuel`: current step index `i`, running `count`, the
`blocked` flag and `gapCount`.  Returns the direction's final
`(count, openEnds increment, gaps increment)`. -/
def lineDirLoop (b : Board) (stone : Stone) (sr sc dr dc dir : Int) :
    Nat → Int → Int → Bool → Int → Int × Int × Int
  | 0, _, count, _, _ => (count, 0, 0)
  | fuel + 1, i, count, blocked, gapCount =>
    let current := getStone b (sr + dr * i * dir) (sc + dc * i * dir)
    if current = stone then
      let gadd : Int := if 0 < gapCount then 1 else 0
      let res := lineDirLoop b stone sr sc dr dc dir fuel (i + 1) (count + 1) blocked 0
      (res.1, res.2.1, res.2.2 + gadd)
    else if current = Stone.EMPTY then
      if 0 < count ∧ gapCount = 0 then
        lineDirLoop b stone sr sc dr dc dir fuel (i + 1) count blocked (gapCount + 1)
      else
        (count, if blocked then 0 else 1, 0)
    else
      (count, 0, 0)

/-- PatternEvaluator::analyzeLine - pattern through `pos` along `(dr,dc)`,
scanning direction signs -1 then +1, starting from `{1, 0, 0}`. -/
def analyzeLine (b : Board) (pos : Pos) (dr dc : Int) (stone : Stone) : LinePattern :=
  let neg := lineDirLoop b stone pos.1 pos.2 dr dc (-1) 4 1 0 false 0
  let posd := lineDirLoop b stone pos.1 pos.2 dr dc 1 4 1 0 false 0
  { consecutive := 1 + neg.1 + posd.1,
    openEnds := neg.2.1 + posd.2.1,
    gaps := neg.2.2 + posd.2.2 }

/-- PatternEvaluator::getPatternScore - the tier table (PatternScore constants). -/
def getPatternScore (p : LinePattern) : Int :=
  if 5 ≤ p.consecutive then 100000
  else if p.consecutive = 4 ∧ p.openEnds = 2 then 10000
  else if p.consecutive = 4 ∧ p.openEnds = 1 then 1000
  else if p.consecutive = 3 ∧ p.openEnds = 2 then 1000
  else if p.consecutive = 3 ∧ p.openEnds = 1 then 100
  else if p.consecutive = 2 ∧ p.openEnds = 2 then 100
  else if p.consecutive = 2 ∧ p.openEnds = 1 then 10
  else if p.consecutive = 1 ∧ 0 < p.openEnds then 1
  else 0

/-- One cell's contribution inside `PatternEvaluator::evaluatePosition`:
the direction-filtered pattern scores plus the positional (center) bonus,
each weighted by `multiplier = (current == stone) ? 1 : -1`. -/
def cellScore (b : Board) (stone : Stone) (p : Pos) : Int :=
  let current := getStone b p.1 p.2
  if current = Stone.EMPTY then 0
  else
    let multiplier : Int := if current = stone then 1 else -1
    let dirSum := DIRECTIONS.foldl
      (fun s d =>
        if d.1 = 0 ∨ (d.1 = 1 ∧ 0 ≤ d.2) then
          s + multiplier * getPatternScore (analyzeLine b p d.1 d.2 current)
        else s)
      0
    let centerDist : Int := ((p.1 - BOARD_SIZE / 2).natAbs : Int) + ((p.2 - BOARD_SIZE / 2).natAbs : Int)
    dirSum + multiplier * (BOARD_SIZE - centerDist)

/-- PatternEvaluator::evaluatePosition - sum of cell contributions over the
row-major scan (the C++ accumulates into one running `score`). -/
def evaluatePosition (b : Board) (stone : Stone) : Int :=
  scanCells.foldl (fun score p => score + cellScore b stone p) 0

/-- PatternEvaluator::isThreat - place `stone` on a copy of the board at
`pos` and look for a four or an open three through `pos`. -/
def isThreat (b : Board) (pos : Pos) (stone : Stone) : Bool :=
  let temp := (placeStone b pos.1 pos.2 stone).2
  DIRECTIONS.any (fun d =>
    let p := analyzeLine temp pos d.1 d.2 stone
    decide (4 ≤ p.consecutive ∨ (p.consecutive = 3 ∧ p.openEnds = 2)))

/-- INFINITY_SCORE = 1000000. -/
def INFINITY_SCORE : Int := 1000000

/-- WIN_SCORE = 100000. -/
def WIN_SCORE : Int := 100000

/-- The GomokuAI object state: own stone, opponent stone, depth budget.
The `std::mt19937 rng` member is modelled as an explicit draw stream
`s : Nat -> Nat` together with a counter of draws consumed so far. -/
structure AI where
  myStone : Stone
  opponentStone : Stone
  maxDepth : Int

/-- One pass of the insertion used to model `std::sort` with comparator
`a.score > b.score` (descending).  `std::sort` leaves the relative order
of tied scores unspecified; this insertion sort is one concrete
refinement of it (tied candidates come out in reverse candidate order).
No theorem below depends on that tie order: the frame, fast-path and
rng-congruence theorems never inspect the sorted order, and the
determinism counterexample asserts only facts that hold under every
descending ordering of the scored list. -/
def insertDesc (x : Pos × Int) : List (Pos × Int) → List (Pos × Int)
  | [] => [x]
  | y :: ys => if y.2 < x.2 then x :: y :: ys else y :: insertDesc x ys

/-- Descending stable insertion sort on scores (model of the `std::sort` call). -/
def sortDesc : List (Pos × Int) → List (Pos × Int)
  | [] => []
  | x :: xs => insertDesc x (sortDesc xs)

/-- The per-candidate scoring step of `GomokuAI::orderMoves`: tentatively
place, score (immediate end = INFINITY_SCORE, else evaluation plus a 5000
block bonus when the cell is an opponent threat), then remove. -/
def scoreMove (b : Board) (stone : Stone) (m : Pos) : Int × Board :=
  let b1 := (placeStone b m.1 m.2 stone).2
  let score :=
    if checkWin b1 ≠ GameStatus.ONGOING then INFINITY_SCORE
    else
      let base := evaluatePosition b1 stone
      let opponent := if stone = Stone.BLACK then Stone.WHITE else Stone.BLACK
      if isThreat b1 m opponent then base + 5000 else base
  (score, removeStone b1 m.1 m.2)

/-- GomokuAI::orderMoves - score every candidate, sort descending, keep at
most 10 (`if (moves.size() >= 10) break`). -/
def orderMoves (b : Board) (moves : List Pos) (stone : Stone) : List Pos × Board :=
  let scored := moves.foldl
    (fun acc m =>
      let r := scoreMove acc.2 stone m
      (acc.1 ++ [(m, r.1)], r.2))
    (([] : List (Pos × Int)), b)
  (((sortDesc scored.1).map Prod.fst).take 10, scored.2)

/-- The maximizing loop of `GomokuAI::minimax` with beta pruning; `next`
is the recursive minimax call one ply deeper. -/
def abLoopMax (stone : Stone) (next : Board → Int → Int → Int × Board) :
    List Pos → Int → Int → Int → Board → Int × Board
  | [], maxEval, _, _, b => (maxEval, b)
  | m :: rest, maxEval, alpha, beta, b =>
    let b1 := (placeStone b m.1 m.2 stone).2
    let r := next b1 alpha beta
    let b3 := removeStone r.2 m.1 m.2
    let maxEval' := max maxEval r.1
    let alpha' := max alpha r.1
    if beta ≤ alpha' then (maxEval', b3)
    else abLoopMax stone next rest maxEval' alpha' beta b3

/-- The minimizing loop of `GomokuAI::minimax` with alpha pruning. -/
def abLoopMin (stone : Stone) (next : Board → Int → Int → Int × Board) :
    List Pos → Int → Int → Int → Board → Int × Board
  | [], minEval, _, _, b => (minEval, b)
  | m :: rest, minEval, alpha, beta, b =>
    let b1 := (placeStone b m.1 m.2 stone).2
    let r := next b1 alpha beta
    let b3 := removeStone r.2 m.1 m.2
    let minEval' := min minEval r.1
    let beta' := min beta r.1
    if beta' ≤ alpha then (minEval', b3)
    else abLoopMin stone next rest minEval' alpha beta' b3

/-- GomokuAI::minimax.  The C++ recursion is bounded by
`if (depth >= maxDepth) return evaluate(...)`; here `fuel` is the number
of plies left, maintained as `(maxDepth - depth).toNat` by the callers, so
`fuel = 0` exactly when `depth >= maxDepth`. -/
def minimax (ai : AI) (fuel : Nat) (depth : Int) (b : Board) (alpha beta : Int)
    (isMaximizing : Bool) : Int × Board :=
  let status := checkWin b
  if status ≠ GameStatus.ONGOING then
    if status = GameStatus.DRAW then (0, b)
    else
      let iWon := (status = GameStatus.BLACK_WIN ∧ ai.myStone = Stone.BLACK) ∨
                  (status = GameStatus.WHITE_WIN ∧ ai.myStone = Stone.WHITE)
      (if iWon then WIN_SCORE - depth else -WIN_SCORE + depth, b)
  else
    match fuel with
    | 0 => (evaluatePosition b ai.myStone, b)
    | fuel' + 1 =>
      let moves := getRelevantMoves b 2
      if moves = [] then (0, b)
      else
        let om := orderMoves b moves (if isMaximizing then ai.myStone else ai.opponentStone)
        if isMaximizing then
          abLoopMax ai.myStone (fun b2 a2 b3 => minimax ai fuel' (depth + 1) b2 a2 b3 false)
            om.1 (-INFINITY_SCORE) alpha beta om.2
        else
          abLoopMin ai.opponentStone (fun b2 a2 b3 => minimax ai fuel' (depth + 1) b2 a2 b3 true)
            om.1 INFINITY_SCORE alpha beta om.2

/-- The immediate win-or-block scan at the top of `GomokuAI::getBestMove`:
for each candidate in order, tentatively place own stone (return on a
non-ONGOING status), then the opponent stone (return on a non-ONGOING
status), undoing every placement. -/
def fastLoop (ai : AI) : Board → List Pos → Option Pos × Board
  | b, [] => (none, b)
  | b, m :: rest =>
    let b1 := (placeStone b m.1 m.2 ai.myStone).2
    if checkWin b1 ≠ GameStatus.ONGOING then (some m, removeStone b1 m.1 m.2)
    else
      let b2 := removeStone b1 m.1 m.2
      let b3 := (placeStone b2 m.1 m.2 ai.opponentStone).2
      if checkWin b3 ≠ GameStatus.ONGOING then (some m, removeStone b3 m.1 m.2)
      else fastLoop ai (removeStone b3 m.1 m.2) rest

/-- The final selection loop of `GomokuAI::getBestMove`: minimax each
ordered candidate, add the `(rng() % 10) - 5` noise (draw `s k`), keep the
strictly best.  Returns (best move, board, next rng index). -/
def mainLoop (ai : AI) (s : Nat → Nat) :
    List Pos → Pos → Int → Board → Nat → Pos × Board × Nat
  | [], best, _, b, k => (best, b, k)
  | m :: rest, best, bestScore, b, k =>
    let b1 := (placeStone b m.1 m.2 ai.myStone).2
    let r := minimax ai (ai.maxDepth - 1).toNat 1 b1 (-INFINITY_SCORE) INFINITY_SCORE false
    let b3 := removeStone r.2 m.1 m.2
    let score := r.1 + (((s k % 10 : Nat) : Int) - 5)
    if bestScore < score then mainLoop ai s rest m score b3 (k + 1)
    else mainLoop ai s rest best bestScore b3 (k + 1)

/-- GomokuAI::getBestMove.  `s` is the rng draw stream and `k` the index of
the next unconsumed draw (the mt19937 state); the returned triple carries
the chosen move, the board after the call and the advanced rng index. -/
def getBestMove (ai : AI) (b : Board) (s : Nat → Nat) (k : Nat) : Pos × Board × Nat :=
  match getRelevantMoves b 2 with
  | [] => ((BOARD_SIZE / 2, BOARD_SIZE / 2), b, k)
  | m0 :: rest =>
    match fastLoop ai b (m0 :: rest) with
    | (some m, b1) => (m, b1, k)
    | (none, b1) =>
      let om := orderMoves b1 (m0 :: rest) ai.myStone
      mainLoop ai s om.1 m0 (-INFINITY_SCORE) om.2 k

/-- The one-direction counting loop of `GomokuGame::checkWin` from
`src/unnamed/part_000` (`for (j = 1; j < WIN_LENGTH; j++)` with in-bounds
and same-player test, break on failure).  The grid there is a bare
`vector<vector<Cell>>`, modelled as the function `g`. -/
def ggRun (g : Int → Int → Stone) (player : Stone) (r c dr dc : Int) : Nat → Nat
  | 0 => 0
  | fuel + 1 =>
    if (0 ≤ r + dr ∧ r + dr < BOARD_SIZE ∧ 0 ≤ c + dc ∧ c + dc < BOARD_SIZE)
        ∧ g (r + dr) (c + dc) = player then
      ggRun g player (r + dr) (c + dc) dr dc fuel + 1
    else 0

/-- GomokuGame::checkWin from `src/unnamed/part_000` - the local
`check_win_through`: count both ways from the given cell in each of the
four directions, win iff some direction reaches WIN_LENGTH. -/
def ggCheckWin (g : Int → Int → Stone) (lastR lastC : Int) (player : Stone) : Bool :=
  if lastR = -1 then false
  else DIRECTIONS.any (fun d =>
    decide (WIN_LENGTH ≤ 1 + (ggRun g player lastR lastC d.1 d.2 4 : Int)
      + (ggRun g player lastR lastC (-d.1) (-d.2) 4 : Int)))


/-- In-bounds predicate for a coordinate pair (both axes within [0, BOARD_SIZE)). -/
def inBoundsP (p : Pos) : Prop :=
  0 ≤ p.1 ∧ p.1 < BOARD_SIZE ∧ 0 ≤ p.2 ∧ p.2 < BOARD_SIZE

instance (p : Pos) : Decidable (inBoundsP p) := by
  unfold inBoundsP; infer_instance

/-- Number of non-EMPTY cells of the board (over the 15x15 grid). -/
def occupiedCount (b : Board) : Nat :=
  (scanCells.filter (fun p => decide (b.grid p.1 p.2 ≠ Stone.EMPTY))).length

/-- Board states reachable from the fresh board through the public API as
the spec describes: successful `placeStone` calls placing a side stone
(SIDE_A or SIDE_B, i.e. not EMPTY), and LIFO-matched `removeStone` calls
whose argument is the most recently played, not yet undone coordinate. -/
inductive Reached : Board → Prop
  | start : Reached emptyBoard
  | place (b : Board) (r c : Int) (s : Stone) :
      Reached b → s ≠ Stone.EMPTY → (placeStone b r c s).1 = true →
      Reached (placeStone b r c s).2
  | undo (b : Board) (p : Pos) :
      Reached b → b.moveHistory.getLast? = some p →
      Reached (removeStone b p.1 p.2)

/-- The Board representation invariant: duplicate-free history whose length
is the move counter, and whose entries are exactly the occupied cells. -/
def boardInv (b : Board) : Prop :=
  b.moveHistory.Nodup
  ∧ b.moveCount = (b.moveHistory.length : Int)
  ∧ ∀ p : Pos, (inBoundsP p ∧ b.grid p.1 p.2 ≠ Stone.EMPTY) ↔ p ∈ b.moveHistory


/-- Precondition under which every candidate returned by `getRelevantMoves`
is a valid move: nonnegative move counter, and an EMPTY center cell
whenever the counter is zero.  Every board whose counter matches its
occupancy (in particular every state of a real game) satisfies it. -/
def searchSafe (b : Board) : Prop :=
  0 ≤ b.moveCount
  ∧ (b.moveCount = 0 → b.grid (BOARD_SIZE / 2) (BOARD_SIZE / 2) = Stone.EMPTY)

instance (b : Board) : Decidable (searchSafe b) := by
  unfold searchSafe; infer_instance

/-- The immediate-termination test used by the fast path of
`GomokuAI::getBestMove`: tentatively placing `stone` at `m` makes the
full-board scan report a non-ONGOING status. -/
def endsGame (b : Board) (m : Pos) (stone : Stone) : Bool :=
  decide (checkWin (placeStone b m.1 m.2 stone).2 ≠ GameStatus.ONGOING)

/-! ### Concrete instances used by witnesses and counterexamples -/

/-- A grid with a single horizontal black five at row 2, columns 3..7
(used to instantiate the win-check theorem). -/
def gridFiveRow : Int → Int → Stone := fun r c =>
  if r = 2 ∧ 3 ≤ c ∧ c ≤ 7 then Stone.BLACK else Stone.EMPTY


/-- The AI playing BLACK with depth budget 1 (a `GomokuAI(Stone::BLACK, 1)`). -/
def aiBlack1 : AI := { myStone := Stone.BLACK, opponentStone := Stone.WHITE, maxDepth := 1 }

/-- The all-zero rng draw stream. -/
def szero : Nat → Nat := fun _ => 0

/-- Board with a white four (0,0)-(0,3) and a black four (7,0)-(7,3),
reachable by eight alternating placements. -/
def boardTwoFours : Board :=
  { grid := fun r c =>
      if r = 0 ∧ 0 ≤ c ∧ c ≤ 3 then Stone.WHITE
      else if r = 7 ∧ 0 ≤ c ∧ c ≤ 3 then Stone.BLACK
      else Stone.EMPTY,
    moveHistory := [(0, 0), (7, 0), (0, 1), (7, 1), (0, 2), (7, 2), (0, 3), (7, 3)],
    moveCount := 8 }

/-- Board obtained from the empty board by `placeStone(7,7,BLACK)` followed
by the mismatched `removeStone(0,0)`: cell (7,7) is occupied although the
move counter is back to 0. -/
def boardDesynced : Board :=
  removeStone (placeStone emptyBoard 7 7 Stone.BLACK).2 0 0

/-- Board with a single white stone at (0,0) (one real move played). -/
def boardOneStone : Board :=
  { grid := fun r c => if r = 0 ∧ c = 0 then Stone.WHITE else Stone.EMPTY,
    moveHistory := [(0, 0)],
    moveCount := 1 }

/-- Draw stream whose draws number 9 and 10 are 9 and all others 0; used
to make two successive `getBestMove` calls disagree.  Draws 9 and 10 are
the noise of the candidates at sorted positions 1 and 2 of the second
call, which in every descending order of the scored list are the two
score-3 candidates. -/
def sflip : Nat → Nat := fun i => if i = 9 ∨ i = 10 then 9 else 0

/-- The constant-10 rng draw stream (agrees with `szero` modulo 10). -/
def sten : Nat → Nat := fun _ => 10

/-! ### Basic lemmas about the board operations -/

theorem isValidMove_iff {b : Board} {r c : Int} :
    isValidMove b r c = true ↔
      0 ≤ r ∧ r < BOARD_SIZE ∧ 0 ≤ c ∧ c < BOARD_SIZE ∧ b.grid r c = Stone.EMPTY := by
  simp [isValidMove]

theorem place_succeeds {b : Board} {r c : Int} {s : Stone} (h : isValidMove b r c = true) :
    placeStone b r c s =
      (true,
        { grid := fun r2 c2 => if r2 = r ∧ c2 = c then s else b.grid r2 c2,
          moveHistory := b.moveHistory ++ [(r, c)],
          moveCount := b.moveCount + 1 }) := by
  simp [placeStone, h]

theorem place_remove {b : Board} {r c : Int} {s : Stone} (h : isValidMove b r c = true) :
    removeStone (placeStone b r c s).2 r c = b := by
  rcases b with ⟨g, hist, cnt⟩
  have hemp : g r c = Stone.EMPTY := (isValidMove_iff.mp h).2.2.2.2
  rw [place_succeeds h]
  simp only [removeStone]
  congr 1
  · funext r2 c2
    by_cases hrc : r2 = r ∧ c2 = c
    · simp [hrc, hemp, hrc.1, hrc.2]
    · simp [hrc]
  · simp
  · simp

/-! ### C4: place then undo restores the board -/

/-- C4: for every board and every valid move (in range, target EMPTY),
`placeStone` followed by `removeStone` at the same cell restores the cell
grid, the move history and the move counter exactly. -/
theorem placeStone_removeStone_restores (b : Board) (r c : Int) (s : Stone)
    (h : isValidMove b r c = true) :
    (removeStone (placeStone b r c s).2 r c).grid = b.grid
    ∧ (removeStone (placeStone b r c s).2 r c).moveHistory = b.moveHistory
    ∧ (removeStone (placeStone b r c s).2 r c).moveCount = b.moveCount := by
  rw [place_remove h]
  exact ⟨rfl, rfl, rfl⟩

/-- C4 witness: placing BLACK at the center of the fresh board and undoing
it restores the fresh board. -/
theorem placeStone_removeStone_restores_witness :
    isValidMove emptyBoard 7 7 = true
    ∧ ((removeStone (placeStone emptyBoard 7 7 Stone.BLACK).2 7 7).grid = emptyBoard.grid
       ∧ (removeStone (placeStone emptyBoard 7 7 Stone.BLACK).2 7 7).moveHistory
           = emptyBoard.moveHistory
       ∧ (removeStone (placeStone emptyBoard 7 7 Stone.BLACK).2 7 7).moveCount
           = emptyBoard.moveCount) :=
  ⟨by decide, placeStone_removeStone_restores emptyBoard 7 7 Stone.BLACK (by decide)⟩

/-! ### C9: removeStone accepts mismatched coordinates -/

/-- C9: whenever the history is non-empty, `removeStone(row, col)` at any
in-range coordinate clears that cell, pops the most recent history entry
and decrements the counter; no check relates the argument to the history,
so a coordinate other than the most recently played one is accepted. -/
theorem removeStone_unchecked (b : Board) (r c : Int)
    (hne : b.moveHistory ≠ [])
    (hr : 0 ≤ r ∧ r < BOARD_SIZE) (hc : 0 ≤ c ∧ c < BOARD_SIZE) :
    (removeStone b r c).grid r c = Stone.EMPTY
    ∧ (removeStone b r c).moveHistory = b.moveHistory.dropLast
    ∧ (removeStone b r c).moveCount = b.moveCount - 1 := by
  simp [removeStone, hne]

/-- C9 witness: after placing at (7,7), `removeStone(0,0)` — a coordinate
that is not the one most recently played — still clears (0,0), pops the
history and decrements the counter. -/
theorem removeStone_unchecked_witness :
    ((placeStone emptyBoard 7 7 Stone.BLACK).2.moveHistory ≠ []
     ∧ (placeStone emptyBoard 7 7 Stone.BLACK).2.moveHistory.getLast? ≠ some (0, 0))
    ∧ ((removeStone (placeStone emptyBoard 7 7 Stone.BLACK).2 0 0).grid 0 0 = Stone.EMPTY
       ∧ (removeStone (placeStone emptyBoard 7 7 Stone.BLACK).2 0 0).moveHistory
           = (placeStone emptyBoard 7 7 Stone.BLACK).2.moveHistory.dropLast
       ∧ (removeStone (placeStone emptyBoard 7 7 Stone.BLACK).2 0 0).moveCount
           = (placeStone emptyBoard 7 7 Stone.BLACK).2.moveCount - 1) :=
  ⟨⟨by decide, by decide⟩,
    removeStone_unchecked (placeStone emptyBoard 7 7 Stone.BLACK).2 0 0 (by decide)
      ⟨by decide, by decide⟩ ⟨by decide, by decide⟩⟩

/-! ### C10: getStone is total and returns EMPTY out of range -/

/-- C10: `getStone` returns a `Stone` for every integer coordinate pair,
and whenever the row or column is outside [0, BOARD_SIZE) the result is
EMPTY, so line walks past the board edge read EMPTY instead of faulting. -/
theorem getStone_out_of_range (b : Board) (r c : Int)
    (h : r < 0 ∨ BOARD_SIZE ≤ r ∨ c < 0 ∨ BOARD_SIZE ≤ c) :
    getStone b r c = Stone.EMPTY := by
  simp [getStone, h]

/-- C10 witness: reading (-1, 20) on a non-trivial board yields EMPTY. -/
theorem getStone_out_of_range_witness :
    ((-1 : Int) < 0 ∨ BOARD_SIZE ≤ -1 ∨ (20 : Int) < 0 ∨ BOARD_SIZE ≤ 20)
    ∧ getStone boardTwoFours (-1) 20 = Stone.EMPTY :=
  ⟨by decide, getStone_out_of_range boardTwoFours (-1) 20 (by decide)⟩

/-! ### C6: the evaluator is antisymmetric in its side argument -/

theorem foldl_add_neg {α : Type} (f g : α → Int) (l : List α)
    (h : ∀ p ∈ l, f p = -(g p)) :
    ∀ a : Int, l.foldl (fun s p => s + f p) (-a) = -(l.foldl (fun s p => s + g p) a) := by
  induction l with
  | nil => intro a; simp
  | cons x xs ih =>
    intro a
    simp only [List.foldl_cons]
    rw [h x (by simp)]
    have h2 : -a + -(g x) = -(a + g x) := by ring
    rw [h2]
    exact ih (fun p hp => h p (by simp [hp])) (a + g x)

theorem foldl_dir_neg (l : List (Int × Int)) (F : (Int × Int) → Int) :
    ∀ a : Int,
      l.foldl (fun s d => if d.1 = 0 ∨ (d.1 = 1 ∧ 0 ≤ d.2) then s + (-1) * F d else s) (-a)
      = -(l.foldl (fun s d => if d.1 = 0 ∨ (d.1 = 1 ∧ 0 ≤ d.2) then s + 1 * F d else s) a) := by
  induction l with
  | nil => intro a; simp
  | cons x xs ih =>
    intro a
    simp only [List.foldl_cons]
    by_cases hx : x.1 = 0 ∨ (x.1 = 1 ∧ 0 ≤ x.2)
    · simp only [if_pos hx]
      have h2 : -a + -1 * F x = -(a + 1 * F x) := by ring
      rw [h2]
      exact ih (a + 1 * F x)
    · simp only [if_neg hx]
      exact ih a

theorem cellScore_blackWhite (b : Board) (p : Pos) :
    cellScore b Stone.BLACK p = -(cellScore b Stone.WHITE p) := by
  cases h : getStone b p.1 p.2 with
  | EMPTY => simp [cellScore, h]
  | BLACK =>
    simp only [cellScore, h, reduceCtorEq, if_false, if_true, reduceIte]
    have hf := foldl_dir_neg DIRECTIONS
      (fun d => getPatternScore (analyzeLine b p d.1 d.2 Stone.BLACK)) 0
    rw [neg_zero] at hf
    rw [hf]
    ring
  | WHITE =>
    simp only [cellScore, h, reduceCtorEq, if_false, if_true, reduceIte]
    have hf := foldl_dir_neg DIRECTIONS
      (fun d => getPatternScore (analyzeLine b p d.1 d.2 Stone.WHITE)) 0
    rw [neg_zero] at hf
    rw [hf]
    ring

/-- C6: the pattern evaluator is zero-sum in its side argument: for every
board, `evaluatePosition(board, BLACK) = -evaluatePosition(board, WHITE)`. -/
theorem evaluatePosition_antisymmetric (b : Board) :
    evaluatePosition b Stone.BLACK = -(evaluatePosition b Stone.WHITE) := by
  unfold evaluatePosition
  have h := foldl_add_neg (cellScore b Stone.BLACK) (cellScore b Stone.WHITE) scanCells
    (fun p _ => cellScore_blackWhite b p) 0
  rw [neg_zero] at h
  exact h

/-! ### C8: the reachable-state invariant -/

theorem mem_intRange {lo hi x : Int} : x ∈ intRange lo hi ↔ lo ≤ x ∧ x ≤ hi := by
  unfold intRange
  rw [List.mem_map]
  constructor
  · rintro ⟨i, hi2, rfl⟩
    rw [List.mem_range] at hi2
    omega
  · rintro ⟨h1, h2⟩
    refine ⟨(x - lo).toNat, ?_, ?_⟩
    · rw [List.mem_range]
      omega
    · omega

theorem intRange_nodup {lo hi : Int} : (intRange lo hi).Nodup := by
  unfold intRange
  refine List.Nodup.map ?_ (List.nodup_range _)
  intro i j hij
  simp only [add_right_inj, Nat.cast_inj] at hij
  exact hij

theorem mem_scanCells {p : Pos} : p ∈ scanCells ↔ inBoundsP p := by
  obtain ⟨r, c⟩ := p
  simp only [scanCells, List.mem_flatMap, List.mem_map, mem_intRange, inBoundsP, Prod.mk.injEq]
  constructor
  · rintro ⟨r2, hr2, c2, hc2, rfl, rfl⟩
    omega
  · rintro ⟨h1, h2, h3, h4⟩
    exact ⟨r, ⟨h1, by omega⟩, c, ⟨h3, by omega⟩, rfl, rfl⟩

theorem scanCells_nodup : scanCells.Nodup := by
  unfold scanCells
  refine List.nodup_flatMap.mpr ⟨?_, ?_⟩
  · intro r _
    exact List.Nodup.map (fun c1 c2 h => by simpa using h) intRange_nodup
  · refine List.Pairwise.imp ?_ intRange_nodup
    intro a b hab
    intro x hx1 hx2
    rw [List.mem_map] at hx1 hx2
    obtain ⟨c1, _, rfl⟩ := hx1
    obtain ⟨c2, _, h2⟩ := hx2
    exact hab (by simpa using congrArg Prod.fst h2.symm)

theorem place_component (b : Board) (r c : Int) (s : Stone)
    (h : (placeStone b r c s).1 = true) : isValidMove b r c = true := by
  by_cases hv : isValidMove b r c
  · exact hv
  · simp [placeStone, hv] at h

theorem boardInv_empty : boardInv emptyBoard := by
  refine ⟨List.nodup_nil, rfl, ?_⟩
  intro p
  simp [emptyBoard]

theorem boardInv_place {b : Board} {r c : Int} {s : Stone}
    (hinv : boardInv b) (hs : s ≠ Stone.EMPTY) (hval : isValidMove b r c = true) :
    boardInv (placeStone b r c s).2 := by
  obtain ⟨hnd, hcnt, hmem⟩ := hinv
  obtain ⟨h1, h2, h3, h4, hemp⟩ := isValidMove_iff.mp hval
  have hnotin : (r, c) ∉ b.moveHistory := by
    intro hin
    exact ((hmem (r, c)).mpr hin).2 hemp
  rw [place_succeeds hval]
  refine ⟨?_, ?_, ?_⟩
  · rw [List.nodup_append]
    refine ⟨hnd, by simp, ?_⟩
    intro a ha hb
    simp only [List.mem_singleton] at hb
    subst hb
    exact hnotin ha
  · simp only [List.length_append, List.length_singleton, Nat.cast_add, Nat.cast_one, hcnt]
  · intro p
    by_cases hpe : p = (r, c)
    · subst hpe
      simp only [List.mem_append, List.mem_singleton, or_true, iff_true]
      exact ⟨⟨h1, h2, h3, h4⟩, by simp [hs]⟩
    · have hne2 : ¬(p.1 = r ∧ p.2 = c) := by
        intro hh
        exact hpe (Prod.ext_iff.mpr ⟨hh.1, hh.2⟩)
      simp only [hne2, if_false, List.mem_append, List.mem_singleton, hpe, or_false]
      exact hmem p

theorem boardInv_undo {b : Board} {p : Pos}
    (hinv : boardInv b) (hlast : b.moveHistory.getLast? = some p) :
    boardInv (removeStone b p.1 p.2) := by
  obtain ⟨hnd, hcnt, hmem⟩ := hinv
  have hne : b.moveHistory ≠ [] := by
    intro h0
    rw [h0] at hlast
    simp at hlast
  have hp : b.moveHistory.dropLast ++ [p] = b.moveHistory :=
    List.dropLast_append_getLast? p hlast
  have hnd2 : (b.moveHistory.dropLast ++ [p]).Nodup := by rw [hp]; exact hnd
  rw [List.nodup_append] at hnd2
  have hpd : p ∉ b.moveHistory.dropLast := by
    intro hin
    exact hnd2.2.2 hin (by simp)
  have hlen : 0 < b.moveHistory.length := List.length_pos.mpr hne
  refine ⟨?_, ?_, ?_⟩
  · simp only [removeStone, hne, if_neg hne]
    exact hnd2.1
  · simp only [removeStone, if_neg hne, List.length_dropLast]
    omega
  · intro q
    simp only [removeStone, if_neg hne]
    by_cases hq : q = p
    · subst hq
      simp [hpd]
    · have hne2 : ¬(q.1 = p.1 ∧ q.2 = p.2) := by
        intro hh
        exact hq (Prod.ext_iff.mpr ⟨hh.1, hh.2⟩)
      simp only [hne2, if_false]
      rw [hmem q, ← hp, List.mem_append, List.mem_singleton]
      simp [hq]

theorem reached_boardInv {b : Board} (h : Reached b) : boardInv b := by
  induction h with
  | start => exact boardInv_empty
  | place b r c s _ hs hsucc ih => exact boardInv_place ih hs (place_component _ _ _ _ hsucc)
  | undo b p _ hlast ih => exact boardInv_undo ih hlast

/-- C8: every board reachable from the fresh board by successful side-stone
placements and LIFO-matched undos satisfies: the number of occupied cells,
the move counter and the history length agree, and the history is
duplicate-free.  (That each history coordinate was EMPTY when played is
forced by `placeStone` only succeeding on EMPTY targets.) -/
theorem reachable_board_counts (b : Board) (h : Reached b) :
    (occupiedCount b : Int) = b.moveCount
    ∧ b.moveCount = (b.moveHistory.length : Int)
    ∧ b.moveHistory.Nodup := by
  obtain ⟨hnd, hcnt, hmem⟩ := reached_boardInv h
  refine ⟨?_, hcnt, hnd⟩
  rw [hcnt]
  norm_cast
  have hfn : (scanCells.filter (fun p => decide (b.grid p.1 p.2 ≠ Stone.EMPTY))).Nodup :=
    scanCells_nodup.filter _
  have hmm : ∀ q : Pos,
      q ∈ scanCells.filter (fun p => decide (b.grid p.1 p.2 ≠ Stone.EMPTY))
        ↔ q ∈ b.moveHistory := by
    intro q
    rw [List.mem_filter, mem_scanCells, decide_eq_true_eq]
    exact hmem q
  have h1 : ((scanCells.filter (fun p => decide (b.grid p.1 p.2 ≠ Stone.EMPTY)) : List Pos) :
      Multiset Pos).Nodup := by
    rw [Multiset.coe_nodup]
    exact hfn
  have h2 : ((b.moveHistory : List Pos) : Multiset Pos).Nodup := by
    rw [Multiset.coe_nodup]
    exact hnd
  have hft : ((scanCells.filter (fun p => decide (b.grid p.1 p.2 ≠ Stone.EMPTY)) : List Pos) :
      Multiset Pos).toFinset = ((b.moveHistory : List Pos) : Multiset Pos).toFinset := by
    ext q
    rw [Multiset.mem_toFinset, Multiset.mem_toFinset, Multiset.mem_coe, Multiset.mem_coe]
    exact hmm q
  have heq := Multiset.Nodup.toFinset_inj h1 h2 hft
  have hlen := congrArg Multiset.card heq
  simpa [occupiedCount] using hlen

/-- C8 witness: the invariant instantiated at the board reached by placing
one BLACK stone at the center of the fresh board. -/
theorem reachable_board_counts_witness :
    (occupiedCount (placeStone emptyBoard 7 7 Stone.BLACK).2 : Int)
        = (placeStone emptyBoard 7 7 Stone.BLACK).2.moveCount
    ∧ (placeStone emptyBoard 7 7 Stone.BLACK).2.moveCount
        = ((placeStone emptyBoard 7 7 Stone.BLACK).2.moveHistory.length : Int)
    ∧ (placeStone emptyBoard 7 7 Stone.BLACK).2.moveHistory.Nodup :=
  reachable_board_counts (placeStone emptyBoard 7 7 Stone.BLACK).2
    (Reached.place emptyBoard 7 7 Stone.BLACK Reached.start (by decide) (by decide))

/-! ### C3: the local win check detects exactly runs of five or more -/

theorem ggRun_le (g : Int → Int → Stone) (p : Stone) (dr dc : Int) :
    ∀ (fuel : Nat) (r c : Int), ggRun g p r c dr dc fuel ≤ fuel := by
  intro fuel
  induction fuel with
  | zero => intro r c; simp [ggRun]
  | succ n ih =>
    intro r c
    rw [ggRun]
    split
    · exact Nat.succ_le_succ (ih _ _)
    · exact Nat.zero_le _

theorem ggRun_sound (g : Int → Int → Stone) (p : Stone) (dr dc : Int) :
    ∀ (fuel : Nat) (r c : Int) (j : Nat), 1 ≤ j → j ≤ ggRun g p r c dr dc fuel →
      inBoundsP (r + (j : Int) * dr, c + (j : Int) * dc)
      ∧ g (r + (j : Int) * dr) (c + (j : Int) * dc) = p := by
  intro fuel
  induction fuel with
  | zero => intro r c j h1 h2; simp [ggRun] at h2; omega
  | succ n ih =>
    intro r c j h1 h2
    rw [ggRun] at h2
    by_cases hM : (0 ≤ r + dr ∧ r + dr < BOARD_SIZE ∧ 0 ≤ c + dc ∧ c + dc < BOARD_SIZE)
        ∧ g (r + dr) (c + dc) = p
    · rw [if_pos hM] at h2
      rcases Nat.lt_or_ge j 2 with hj | hj
      · have hj1 : j = 1 := by omega
        subst hj1
        have e1 : r + ((1 : Nat) : Int) * dr = r + dr := by push_cast; ring
        have e2 : c + ((1 : Nat) : Int) * dc = c + dc := by push_cast; ring
        rw [e1, e2]
        exact ⟨hM.1, hM.2⟩
      · have h3 : j - 1 ≤ ggRun g p (r + dr) (c + dc) dr dc n := by omega
        have := ih (r + dr) (c + dc) (j - 1) (by omega) h3
        have e1 : r + dr + ((j - 1 : Nat) : Int) * dr = r + (j : Int) * dr := by
          have : ((j - 1 : Nat) : Int) = (j : Int) - 1 := by omega
          rw [this]; ring
        have e2 : c + dc + ((j - 1 : Nat) : Int) * dc = c + (j : Int) * dc := by
          have : ((j - 1 : Nat) : Int) = (j : Int) - 1 := by omega
          rw [this]; ring
        rw [e1, e2] at this
        exact this
    · rw [if_neg hM] at h2
      omega

theorem ggRun_complete (g : Int → Int → Stone) (p : Stone) (dr dc : Int) :
    ∀ (fuel : Nat) (r c : Int) (n : Nat), n ≤ fuel →
      (∀ j : Nat, 1 ≤ j → j ≤ n →
        inBoundsP (r + (j : Int) * dr, c + (j : Int) * dc)
        ∧ g (r + (j : Int) * dr) (c + (j : Int) * dc) = p) →
      n ≤ ggRun g p r c dr dc fuel := by
  intro fuel
  induction fuel with
  | zero => intro r c n h1 _; omega
  | succ m ih =>
    intro r c n hn hall
    rcases Nat.eq_zero_or_pos n with h0 | hpos
    · omega
    · have h1 := hall 1 le_rfl hpos
      have hM : (0 ≤ r + dr ∧ r + dr < BOARD_SIZE ∧ 0 ≤ c + dc ∧ c + dc < BOARD_SIZE)
          ∧ g (r + dr) (c + dc) = p := by
        have e1 : r + ((1 : Nat) : Int) * dr = r + dr := by push_cast; ring
        have e2 : c + ((1 : Nat) : Int) * dc = c + dc := by push_cast; ring
        obtain ⟨hb, hg⟩ := h1
        rw [e1, e2] at hb hg
        exact ⟨hb, hg⟩
      rw [ggRun, if_pos hM]
      have := ih (r + dr) (c + dc) (n - 1) (by omega) ?_
      · omega
      · intro j hj1 hj2
        have := hall (j + 1) (by omega) (by omega)
        have e1 : r + ((j + 1 : Nat) : Int) * dr = r + dr + (j : Int) * dr := by push_cast; ring
        have e2 : c + ((j + 1 : Nat) : Int) * dc = c + dc + (j : Int) * dc := by push_cast; ring
        rw [e1, e2] at this
        exact this

theorem dir_bridge (g : Int → Int → Stone) (p : Stone) (d : Int × Int) (r c : Int)
    (hself : inBoundsP (r, c) ∧ g r c = p) :
    (5 : Int) ≤ 1 + (ggRun g p r c d.1 d.2 4 : Int) + (ggRun g p r c (-d.1) (-d.2) 4 : Int)
    ↔ ∃ a : Int, -4 ≤ a ∧ a ≤ 0 ∧ ∀ j : Int, 0 ≤ j → j ≤ 4 →
        inBoundsP (r + (a + j) * d.1, c + (a + j) * d.2)
        ∧ g (r + (a + j) * d.1) (c + (a + j) * d.2) = p := by
  have hF4 := ggRun_le g p d.1 d.2 4 r c
  have hB4 := ggRun_le g p (-d.1) (-d.2) 4 r c
  set F := ggRun g p r c d.1 d.2 4 with hFdef
  set B := ggRun g p r c (-d.1) (-d.2) 4 with hBdef
  constructor
  · intro h
    have hFB : 4 ≤ F + B := by omega
    refine ⟨-(B : Int), by omega, by omega, ?_⟩
    intro j hj0 hj4
    set o : Int := -(B : Int) + j with ho
    rcases lt_trichotomy o 0 with hneg | hzero | hpos
    · -- backward: steps 1 .. -o
      have h1 : 1 ≤ (-o).toNat := by omega
      have h2 : (-o).toNat ≤ B := by omega
      have := ggRun_sound g p (-d.1) (-d.2) 4 r c (-o).toNat h1 (le_trans h2 le_rfl)
      have e1 : r + ((-o).toNat : Int) * -d.1 = r + o * d.1 := by
        have : ((-o).toNat : Int) = -o := by omega
        rw [this]; ring
      have e2 : c + ((-o).toNat : Int) * -d.2 = c + o * d.2 := by
        have : ((-o).toNat : Int) = -o := by omega
        rw [this]; ring
      rw [e1, e2] at this
      exact this
    · have e1 : r + o * d.1 = r := by rw [hzero]; ring
      have e2 : c + o * d.2 = c := by rw [hzero]; ring
      rw [e1, e2]
      exact hself
    · -- forward: steps 1 .. o
      have h1 : 1 ≤ o.toNat := by omega
      have h2 : o.toNat ≤ F := by omega
      have := ggRun_sound g p d.1 d.2 4 r c o.toNat h1 h2
      have e1 : r + (o.toNat : Int) * d.1 = r + o * d.1 := by
        have : (o.toNat : Int) = o := by omega
        rw [this]
      have e2 : c + (o.toNat : Int) * d.2 = c + o * d.2 := by
        have : (o.toNat : Int) = o := by omega
        rw [this]
      rw [e1, e2] at this
      exact this
  · rintro ⟨a, ha1, ha2, hall⟩
    have hF : (a + 4).toNat ≤ F := by
      refine ggRun_complete g p d.1 d.2 4 r c _ (by omega) ?_
      intro j hj1 hj2
      have := hall ((j : Int) - a) (by omega) (by omega)
      have e1 : r + (a + ((j : Int) - a)) * d.1 = r + (j : Int) * d.1 := by ring
      have e2 : c + (a + ((j : Int) - a)) * d.2 = c + (j : Int) * d.2 := by ring
      rw [e1, e2] at this
      exact this
    have hB : (-a).toNat ≤ B := by
      refine ggRun_complete g p (-d.1) (-d.2) 4 r c _ (by omega) ?_
      intro j hj1 hj2
      have := hall (-(j : Int) - a) (by omega) (by omega)
      have e1 : r + (a + (-(j : Int) - a)) * d.1 = r + (j : Int) * -d.1 := by ring
      have e2 : c + (a + (-(j : Int) - a)) * d.2 = c + (j : Int) * -d.2 := by ring
      rw [e1, e2] at this
      exact this
    omega

/-- C3: for every board and occupied in-range cell, the local win check
(`GomokuGame::checkWin` through that cell, the spec's `check_win_through`)
returns true iff along one of the four axis directions there is a
contiguous window of five in-bounds same-side cells containing the cell -
i.e. iff the run through the cell has length at least five.  A run of
exactly five is therefore detected through any of its five cells, and an
interrupted run (an opposite-side or EMPTY cell inside every window) is
never reported. -/
theorem ggCheckWin_iff_five_in_row (g : Int → Int → Stone) (r c : Int) (side : Stone)
    (hin : inBoundsP (r, c)) (hocc : g r c = side) (hside : side ≠ Stone.EMPTY) :
    ggCheckWin g r c side = true ↔
      ∃ d ∈ DIRECTIONS, ∃ a : Int, -4 ≤ a ∧ a ≤ 0 ∧
        ∀ j : Int, 0 ≤ j → j ≤ 4 →
          inBoundsP (r + (a + j) * d.1, c + (a + j) * d.2)
          ∧ g (r + (a + j) * d.1) (c + (a + j) * d.2) = side := by
  have hr : ¬(r = -1) := by
    have := hin.1
    omega
  rw [ggCheckWin, if_neg hr, List.any_eq_true]
  constructor
  · rintro ⟨d, hd, hdec⟩
    rw [decide_eq_true_eq] at hdec
    exact ⟨d, hd, (dir_bridge g side d r c ⟨hin, hocc⟩).mp (by simpa [WIN_LENGTH] using hdec)⟩
  · rintro ⟨d, hd, hwin⟩
    refine ⟨d, hd, ?_⟩
    rw [decide_eq_true_eq]
    simpa [WIN_LENGTH] using (dir_bridge g side d r c ⟨hin, hocc⟩).mpr hwin

/-- C3 witness: the check instantiated at the middle cell (2,5) of a
horizontal black five occupying (2,3)..(2,7). -/
theorem ggCheckWin_iff_five_in_row_witness :
    (inBoundsP ((2 : Int), (5 : Int)) ∧ gridFiveRow 2 5 = Stone.BLACK
      ∧ Stone.BLACK ≠ Stone.EMPTY)
    ∧ (ggCheckWin gridFiveRow 2 5 Stone.BLACK = true ↔
        ∃ d ∈ DIRECTIONS, ∃ a : Int, -4 ≤ a ∧ a ≤ 0 ∧
          ∀ j : Int, 0 ≤ j → j ≤ 4 →
            inBoundsP (2 + (a + j) * d.1, 5 + (a + j) * d.2)
            ∧ gridFiveRow (2 + (a + j) * d.1) (5 + (a + j) * d.2) = Stone.BLACK) :=
  ⟨⟨by decide, by decide, by decide⟩,
    ggCheckWin_iff_five_in_row gridFiveRow 2 5 Stone.BLACK (by decide) (by decide) (by decide)⟩

/-! ### C5: the candidate generator -/

theorem mem_neighborOffsets {range : Int} {d : Int × Int} :
    d ∈ neighborOffsets range ↔
      -range ≤ d.1 ∧ d.1 ≤ range ∧ -range ≤ d.2 ∧ d.2 ≤ range := by
  obtain ⟨x, y⟩ := d
  simp only [neighborOffsets, List.mem_flatMap, List.mem_map, mem_intRange, Prod.mk.injEq]
  constructor
  · rintro ⟨a, ha, b, hb, rfl, rfl⟩
    exact ⟨ha.1, ha.2, hb.1, hb.2⟩
  · rintro ⟨h1, h2, h3, h4⟩
    exact ⟨x, ⟨h1, h2⟩, y, ⟨h3, h4⟩, rfl, rfl⟩

theorem addNeighbors_aux (b : Board) (r c : Int) :
    ∀ (l : List (Int × Int)) (acc : List Pos) (p : Pos),
      (p ∈ l.foldl
        (fun acc' d =>
          if isValidMove b (r + d.1) (c + d.2) ∧ (r + d.1, c + d.2) ∉ acc' then
            acc' ++ [(r + d.1, c + d.2)]
          else acc') acc)
      ↔ p ∈ acc ∨ ∃ d ∈ l, p = (r + d.1, c + d.2) ∧ isValidMove b p.1 p.2 = true := by
  intro l
  induction l with
  | nil => intro acc p; simp
  | cons d rest ih =>
    intro acc p
    rw [List.foldl_cons, ih]
    have hstep : (p ∈ if isValidMove b (r + d.1) (c + d.2) ∧ (r + d.1, c + d.2) ∉ acc then
          acc ++ [(r + d.1, c + d.2)] else acc)
        ↔ p ∈ acc ∨ (p = (r + d.1, c + d.2) ∧ isValidMove b p.1 p.2 = true) := by
      split
      case isTrue h =>
        rw [List.mem_append, List.mem_singleton]
        constructor
        · rintro (hp | rfl)
          · exact Or.inl hp
          · exact Or.inr ⟨rfl, h.1⟩
        · rintro (hp | ⟨rfl, _⟩)
          · exact Or.inl hp
          · exact Or.inr rfl
      case isFalse h =>
        constructor
        · exact Or.inl
        · rintro (hp | ⟨rfl, hv⟩)
          · exact hp
          · rcases not_and_or.mp h with h1 | h2
            · exact absurd hv h1
            · exact not_not.mp h2
    rw [hstep]
    simp only [List.mem_cons]
    constructor
    · rintro ((hp | hx) | ⟨d2, hd2, hp2⟩)
      · exact Or.inl hp
      · exact Or.inr ⟨d, Or.inl rfl, hx⟩
      · exact Or.inr ⟨d2, Or.inr hd2, hp2⟩
    · rintro (hp | ⟨d2, hd2 | hd2, hp2⟩)
      · exact Or.inl (Or.inl hp)
      · subst hd2
        exact Or.inl (Or.inr hp2)
      · exact Or.inr ⟨d2, hd2, hp2⟩

theorem mem_addNeighbors (b : Board) (range r c : Int) (acc : List Pos) (p : Pos) :
    p ∈ addNeighbors b range r c acc ↔
      p ∈ acc ∨ (isValidMove b p.1 p.2 = true ∧ |p.1 - r| ≤ range ∧ |p.2 - c| ≤ range) := by
  unfold addNeighbors
  simp only []
  rw [addNeighbors_aux]
  apply or_congr_right
  constructor
  · rintro ⟨d, hd, rfl, hv⟩
    rw [mem_neighborOffsets] at hd
    refine ⟨hv, ?_, ?_⟩ <;> rw [abs_le] <;> constructor <;> simp only [] <;> omega
  · rintro ⟨hv, h1, h2⟩
    rw [abs_le] at h1 h2
    refine ⟨(p.1 - r, p.2 - c), ?_, ?_, hv⟩
    · rw [mem_neighborOffsets]
      refine ⟨?_, ?_, ?_, ?_⟩ <;> simp only [] <;> omega
    · obtain ⟨p1, p2⟩ := p
      simp only [Prod.mk.injEq]
      constructor <;> ring

theorem addNeighbors_nodup_aux (b : Board) (r c : Int) :
    ∀ (l : List (Int × Int)) (acc : List Pos), acc.Nodup →
      (l.foldl
        (fun acc' d =>
          if isValidMove b (r + d.1) (c + d.2) ∧ (r + d.1, c + d.2) ∉ acc' then
            acc' ++ [(r + d.1, c + d.2)]
          else acc') acc).Nodup := by
  intro l
  induction l with
  | nil => intro acc h; exact h
  | cons d rest ih =>
    intro acc h
    rw [List.foldl_cons]
    apply ih
    split
    case isTrue hc =>
      rw [List.nodup_append]
      exact ⟨h, List.nodup_singleton _, by
        intro a ha hb
        rw [List.mem_singleton] at hb
        subst hb
        exact hc.2 ha⟩
    case isFalse => exact h

theorem addNeighbors_nodup (b : Board) (range r c : Int) (acc : List Pos)
    (h : acc.Nodup) : (addNeighbors b range r c acc).Nodup := by
  unfold addNeighbors
  simp only []
  exact addNeighbors_nodup_aux b r c _ acc h

theorem relevant_aux (b : Board) (range : Int) :
    ∀ (l : List Pos) (acc : List Pos) (q : Pos),
      (q ∈ l.foldl
        (fun acc2 p =>
          if b.grid p.1 p.2 ≠ Stone.EMPTY then addNeighbors b range p.1 p.2 acc2 else acc2) acc)
      ↔ q ∈ acc ∨ ∃ p ∈ l, b.grid p.1 p.2 ≠ Stone.EMPTY ∧ isValidMove b q.1 q.2 = true
          ∧ |q.1 - p.1| ≤ range ∧ |q.2 - p.2| ≤ range := by
  intro l
  induction l with
  | nil => intro acc q; simp
  | cons p0 rest ih =>
    intro acc q
    rw [List.foldl_cons, ih]
    have hstep : (q ∈ if b.grid p0.1 p0.2 ≠ Stone.EMPTY then addNeighbors b range p0.1 p0.2 acc else acc)
        ↔ q ∈ acc ∨ (b.grid p0.1 p0.2 ≠ Stone.EMPTY ∧ isValidMove b q.1 q.2 = true
            ∧ |q.1 - p0.1| ≤ range ∧ |q.2 - p0.2| ≤ range) := by
      split
      case isTrue h =>
        rw [mem_addNeighbors]
        apply or_congr_right
        constructor
        · rintro ⟨hv, h1, h2⟩
          exact ⟨h, hv, h1, h2⟩
        · rintro ⟨_, hv, h1, h2⟩
          exact ⟨hv, h1, h2⟩
      case isFalse h =>
        constructor
        · exact Or.inl
        · rintro (hq | ⟨hocc, _⟩)
          · exact hq
          · exact absurd hocc h
    rw [hstep]
    simp only [List.mem_cons]
    constructor
    · rintro ((hq | hx) | ⟨p2, hp2, hrest⟩)
      · exact Or.inl hq
      · exact Or.inr ⟨p0, Or.inl rfl, hx⟩
      · exact Or.inr ⟨p2, Or.inr hp2, hrest⟩
    · rintro (hq | ⟨p2, hp2 | hp2, hrest⟩)
      · exact Or.inl (Or.inl hq)
      · subst hp2
        exact Or.inl (Or.inr hrest)
      · exact Or.inr ⟨p2, hp2, hrest⟩

theorem relevant_nodup_aux (b : Board) (range : Int) :
    ∀ (l : List Pos) (acc : List Pos), acc.Nodup →
      (l.foldl
        (fun acc2 p =>
          if b.grid p.1 p.2 ≠ Stone.EMPTY then addNeighbors b range p.1 p.2 acc2 else acc2)
        acc).Nodup := by
  intro l
  induction l with
  | nil => intro acc h; exact h
  | cons p0 rest ih =>
    intro acc h
    rw [List.foldl_cons]
    apply ih
    split
    case isTrue => exact addNeighbors_nodup b range p0.1 p0.2 acc h
    case isFalse => exact h

/-- C5: the candidate generator returns exactly the single center cell when
no move has been played; otherwise exactly the in-bounds EMPTY cells within
Chebyshev radius `range` of at least one occupied cell; and the returned
list never contains a cell twice. -/
theorem getRelevantMoves_spec (b : Board) (range : Int) :
    (b.moveCount = 0 → getRelevantMoves b range = [(BOARD_SIZE / 2, BOARD_SIZE / 2)])
    ∧ (b.moveCount ≠ 0 →
        ∀ p : Pos, p ∈ getRelevantMoves b range ↔
          (inBoundsP p ∧ b.grid p.1 p.2 = Stone.EMPTY
           ∧ ∃ q : Pos, inBoundsP q ∧ b.grid q.1 q.2 ≠ Stone.EMPTY
               ∧ |p.1 - q.1| ≤ range ∧ |p.2 - q.2| ≤ range))
    ∧ (getRelevantMoves b range).Nodup := by
  refine ⟨?_, ?_, ?_⟩
  · intro h
    simp [getRelevantMoves, h]
  · intro h p
    rw [getRelevantMoves, if_neg h, relevant_aux]
    simp only [List.not_mem_nil, false_or]
    constructor
    · rintro ⟨q, hqs, hocc, hv, h1, h2⟩
      obtain ⟨h3, h4, h5, h6, h7⟩ := isValidMove_iff.mp hv
      exact ⟨⟨h3, h4, h5, h6⟩, h7, q, mem_scanCells.mp hqs, hocc, h1, h2⟩
    · rintro ⟨hbp, hemp, q, hbq, hocc, h1, h2⟩
      exact ⟨q, mem_scanCells.mpr hbq, hocc,
        isValidMove_iff.mpr ⟨hbp.1, hbp.2.1, hbp.2.2.1, hbp.2.2.2, hemp⟩, h1, h2⟩
  · rw [getRelevantMoves]
    split
    · exact List.nodup_singleton _
    · exact relevant_nodup_aux b range scanCells [] List.nodup_nil

/-- C5 witness: the characterization instantiated on the board with one
white stone at (0,0): its move counter is nonzero, and cell (0,1) is a
candidate iff it is an in-bounds empty cell near an occupied one. -/
theorem getRelevantMoves_spec_witness :
    boardOneStone.moveCount ≠ 0
    ∧ (((0 : Int), (1 : Int)) ∈ getRelevantMoves boardOneStone 2 ↔
        (inBoundsP ((0 : Int), (1 : Int)) ∧ boardOneStone.grid 0 1 = Stone.EMPTY
         ∧ ∃ q : Pos, inBoundsP q ∧ boardOneStone.grid q.1 q.2 ≠ Stone.EMPTY
             ∧ |(0 : Int) - q.1| ≤ 2 ∧ |(1 : Int) - q.2| ≤ 2)) :=
  ⟨by decide, (getRelevantMoves_spec boardOneStone 2).2.1 (by decide) (0, 1)⟩

/-! ### Search-engine frame and fast-path lemmas (shared by C1, C2, C7) -/

theorem place2_moveCount {b : Board} {r c : Int} {s : Stone}
    (h : isValidMove b r c = true) :
    (placeStone b r c s).2.moveCount = b.moveCount + 1 := by
  rw [place_succeeds h]

theorem placed_searchSafe {b : Board} {m : Pos} {s : Stone}
    (hsafe : searchSafe b) (h : isValidMove b m.1 m.2 = true) :
    searchSafe (placeStone b m.1 m.2 s).2 := by
  constructor
  · rw [place2_moveCount h]
    have := hsafe.1
    omega
  · intro h0
    rw [place2_moveCount h] at h0
    have := hsafe.1
    omega

theorem mem_getRelevantMoves_valid {b : Board} {range : Int} {m : Pos}
    (hsafe : searchSafe b) (hm : m ∈ getRelevantMoves b range) :
    isValidMove b m.1 m.2 = true := by
  rw [getRelevantMoves] at hm
  split at hm
  case isTrue h0 =>
    rw [List.mem_singleton] at hm
    subst hm
    rw [isValidMove_iff]
    refine ⟨by norm_num [BOARD_SIZE], by norm_num [BOARD_SIZE], by norm_num [BOARD_SIZE],
      by norm_num [BOARD_SIZE], hsafe.2 h0⟩
  case isFalse h0 =>
    rw [relevant_aux] at hm
    rcases hm with hm | ⟨q, _, _, hv, _⟩
    · simp at hm
    · exact hv

theorem scoreMove_frame {b : Board} {stone : Stone} {m : Pos}
    (h : isValidMove b m.1 m.2 = true) : (scoreMove b stone m).2 = b := by
  simp only [scoreMove]
  exact place_remove h

theorem orderMoves_scored_aux (stone : Stone) :
    ∀ (l : List Pos) (accL : List (Pos × Int)) (b : Board),
      (∀ m ∈ l, isValidMove b m.1 m.2 = true) →
      (l.foldl
        (fun acc m =>
          let r := scoreMove acc.2 stone m
          (acc.1 ++ [(m, r.1)], r.2))
        (accL, b)).2 = b := by
  intro l
  induction l with
  | nil => intro accL b _; rfl
  | cons m rest ih =>
    intro accL b hval
    rw [List.foldl_cons]
    have hm := hval m (by simp)
    simp only [scoreMove_frame hm]
    exact ih _ b (fun m2 hm2 => hval m2 (by simp [hm2]))

theorem orderMoves_frame {b : Board} {moves : List Pos} {stone : Stone}
    (hval : ∀ m ∈ moves, isValidMove b m.1 m.2 = true) :
    (orderMoves b moves stone).2 = b := by
  simp only [orderMoves]
  exact orderMoves_scored_aux stone moves [] b hval

theorem mem_insertDesc {x y : Pos × Int} {l : List (Pos × Int)} :
    y ∈ insertDesc x l ↔ y = x ∨ y ∈ l := by
  induction l with
  | nil => simp [insertDesc]
  | cons z zs ih =>
    rw [insertDesc]
    split
    · simp
    · rw [List.mem_cons, ih, List.mem_cons]
      tauto

theorem mem_sortDesc {y : Pos × Int} {l : List (Pos × Int)} :
    y ∈ sortDesc l ↔ y ∈ l := by
  induction l with
  | nil => simp [sortDesc]
  | cons z zs ih =>
    rw [sortDesc, mem_insertDesc, ih, List.mem_cons]

theorem orderMoves_scored_mem_aux (stone : Stone) :
    ∀ (l : List Pos) (accL : List (Pos × Int)) (b : Board) (pr : Pos × Int),
      pr ∈ (l.foldl
        (fun acc m =>
          let r := scoreMove acc.2 stone m
          (acc.1 ++ [(m, r.1)], r.2))
        (accL, b)).1 →
      pr ∈ accL ∨ pr.1 ∈ l := by
  intro l
  induction l with
  | nil => intro accL b pr h; exact Or.inl h
  | cons m rest ih =>
    intro accL b pr h
    rw [List.foldl_cons] at h
    rcases ih _ _ pr h with hin | hin
    · rw [List.mem_append, List.mem_singleton] at hin
      rcases hin with hin | hin
      · exact Or.inl hin
      · subst hin
        exact Or.inr (by simp)
    · exact Or.inr (by simp [hin])

theorem orderMoves_subset {b : Board} {moves : List Pos} {stone : Stone} {m : Pos}
    (h : m ∈ (orderMoves b moves stone).1) : m ∈ moves := by
  simp only [orderMoves] at h
  have h2 := List.mem_of_mem_take h
  rw [List.mem_map] at h2
  obtain ⟨pr, hpr, rfl⟩ := h2
  rw [mem_sortDesc] at hpr
  rcases orderMoves_scored_mem_aux stone moves [] b pr hpr with h3 | h3
  · simp at h3
  · exact h3

theorem abLoopMax_frame {stone : Stone} {next : Board → Int → Int → Int × Board}
    (hnext : ∀ (b2 : Board) (a2 b3 : Int), searchSafe b2 → (next b2 a2 b3).2 = b2) :
    ∀ (moves : List Pos) (me alpha beta : Int) (b : Board),
      searchSafe b → (∀ m ∈ moves, isValidMove b m.1 m.2 = true) →
      (abLoopMax stone next moves me alpha beta b).2 = b := by
  intro moves
  induction moves with
  | nil => intro me alpha beta b _ _; rfl
  | cons m rest ih =>
    intro me alpha beta b hsafe hval
    have hm := hval m (by simp)
    rw [abLoopMax]
    have hb1 := hnext (placeStone b m.1 m.2 stone).2 alpha beta (placed_searchSafe hsafe hm)
    simp only [hb1, place_remove hm]
    split
    · rfl
    · exact ih _ _ _ b hsafe (fun m2 hm2 => hval m2 (by simp [hm2]))

theorem abLoopMin_frame {stone : Stone} {next : Board → Int → Int → Int × Board}
    (hnext : ∀ (b2 : Board) (a2 b3 : Int), searchSafe b2 → (next b2 a2 b3).2 = b2) :
    ∀ (moves : List Pos) (me alpha beta : Int) (b : Board),
      searchSafe b → (∀ m ∈ moves, isValidMove b m.1 m.2 = true) →
      (abLoopMin stone next moves me alpha beta b).2 = b := by
  intro moves
  induction moves with
  | nil => intro me alpha beta b _ _; rfl
  | cons m rest ih =>
    intro me alpha beta b hsafe hval
    have hm := hval m (by simp)
    rw [abLoopMin]
    have hb1 := hnext (placeStone b m.1 m.2 stone).2 alpha beta (placed_searchSafe hsafe hm)
    simp only [hb1, place_remove hm]
    split
    · rfl
    · exact ih _ _ _ b hsafe (fun m2 hm2 => hval m2 (by simp [hm2]))

theorem minimax_frame (ai : AI) :
    ∀ (fuel : Nat) (depth : Int) (b : Board) (alpha beta : Int) (isMaximizing : Bool),
      searchSafe b → (minimax ai fuel depth b alpha beta isMaximizing).2 = b := by
  intro fuel
  induction fuel with
  | zero =>
    intro depth b alpha beta isMaximizing _
    rw [minimax]
    split
    · split <;> rfl
    · rfl
  | succ n ih =>
    intro depth b alpha beta isMaximizing hsafe
    rw [minimax]
    split
    · split <;> rfl
    · simp only []
      split
      · rfl
      · have hval : ∀ m ∈ getRelevantMoves b 2, isValidMove b m.1 m.2 = true :=
          fun m hm => mem_getRelevantMoves_valid hsafe hm
        split
        · rw [orderMoves_frame hval]
          exact abLoopMax_frame (fun b2 a2 b3 hs => ih (depth + 1) b2 a2 b3 false hs) _ _ _ _ _
            hsafe (fun m hm => hval m (orderMoves_subset hm))
        · rw [orderMoves_frame hval]
          exact abLoopMin_frame (fun b2 a2 b3 hs => ih (depth + 1) b2 a2 b3 true hs) _ _ _ _ _
            hsafe (fun m hm => hval m (orderMoves_subset hm))

theorem fastLoop_eq (ai : AI) :
    ∀ (moves : List Pos) (b : Board),
      (∀ m ∈ moves, isValidMove b m.1 m.2 = true) →
      fastLoop ai b moves =
        (moves.find? (fun m => endsGame b m ai.myStone || endsGame b m ai.opponentStone), b) := by
  intro moves
  induction moves with
  | nil => intro b _; rfl
  | cons m rest ih =>
    intro b hval
    have hm := hval m (by simp)
    rw [fastLoop]
    by_cases h1 : checkWin (placeStone b m.1 m.2 ai.myStone).2 ≠ GameStatus.ONGOING
    · rw [if_pos h1, place_remove hm]
      rw [List.find?_cons_of_pos]
      simp [endsGame, h1]
    · rw [if_neg h1, place_remove hm]
      by_cases h2 : checkWin (placeStone b m.1 m.2 ai.opponentStone).2 ≠ GameStatus.ONGOING
      · rw [if_pos h2, place_remove hm]
        rw [List.find?_cons_of_pos]
        simp [endsGame, h2]
      · rw [if_neg h2, place_remove hm]
        rw [ih b (fun m2 hm2 => hval m2 (by simp [hm2]))]
        rw [List.find?_cons_of_neg]
        simp [endsGame, h1, h2]

theorem mainLoop_frame (ai : AI) (s : Nat → Nat) :
    ∀ (moves : List Pos) (best : Pos) (bestScore : Int) (b : Board) (k : Nat),
      searchSafe b → (∀ m ∈ moves, isValidMove b m.1 m.2 = true) →
      (mainLoop ai s moves best bestScore b k).2.1 = b := by
  intro moves
  induction moves with
  | nil => intro best bestScore b k _ _; rfl
  | cons m rest ih =>
    intro best bestScore b k hsafe hval
    have hm := hval m (by simp)
    rw [mainLoop]
    have hmini := minimax_frame ai (ai.maxDepth - 1).toNat 1 (placeStone b m.1 m.2 ai.myStone).2
      (-INFINITY_SCORE) INFINITY_SCORE false (placed_searchSafe hsafe hm)
    simp only [hmini, place_remove hm]
    split
    · exact ih _ _ b _ hsafe (fun m2 hm2 => hval m2 (by simp [hm2]))
    · exact ih _ _ b _ hsafe (fun m2 hm2 => hval m2 (by simp [hm2]))

theorem mainLoop_rng_mod (ai : AI) {s1 s2 : Nat → Nat}
    (hs : ∀ i, s1 i % 10 = s2 i % 10) :
    ∀ (moves : List Pos) (best : Pos) (bestScore : Int) (b : Board) (k : Nat),
      mainLoop ai s1 moves best bestScore b k = mainLoop ai s2 moves best bestScore b k := by
  intro moves
  induction moves with
  | nil => intro best bestScore b k; rfl
  | cons m rest ih =>
    intro best bestScore b k
    rw [mainLoop, mainLoop]
    rw [hs k]
    split
    · exact ih _ _ _ _
    · exact ih _ _ _ _

/-! ### C1 (amended), C2 (amended), C7 (amended) -/

/-- C1 (amended): for every board meeting the generator precondition, if
some candidate immediately ends the game when either side's stone is
placed there, `getBestMove` returns the FIRST such candidate in candidate
order - checking, per candidate, first the own-stone placement and then
the opponent placement.  Hence it returns an immediately winning cell when
the side has an immediate win and the opponent has none at any earlier
candidate, and a blocking cell when only the opponent has one; but an
earlier blocking candidate is preferred over a later winning one. -/
theorem getBestMove_first_threat (ai : AI) (b : Board) (s : Nat → Nat) (k : Nat) (m : Pos)
    (hsafe : searchSafe b)
    (hfind : (getRelevantMoves b 2).find?
        (fun m2 => endsGame b m2 ai.myStone || endsGame b m2 ai.opponentStone) = some m) :
    (getBestMove ai b s k).1 = m := by
  cases hc : getRelevantMoves b 2 with
  | nil =>
    rw [hc] at hfind
    simp at hfind
  | cons m0 rest =>
    have hvals : ∀ m2 ∈ m0 :: rest, isValidMove b m2.1 m2.2 = true := by
      intro m2 hm2
      exact mem_getRelevantMoves_valid hsafe (hc ▸ hm2)
    rw [hc] at hfind
    unfold getBestMove
    rw [hc]
    simp only [fastLoop_eq ai (m0 :: rest) b hvals, hfind]

/-- C2 (amended): for every board with a nonnegative move counter whose
center cell is EMPTY whenever the counter is zero (every state arising
from matched place/undo use; only a mismatched removeStone can break it),
a complete `getBestMove` call - fast path, move-ordering pre-scoring and
minimax exploration with alpha-beta breaks - returns the board exactly as
it found it: grid, history and counter unchanged. -/
theorem getBestMove_frame (ai : AI) (b : Board) (s : Nat → Nat) (k : Nat)
    (hsafe : searchSafe b) : (getBestMove ai b s k).2.1 = b := by
  cases hc : getRelevantMoves b 2 with
  | nil =>
    unfold getBestMove
    rw [hc]
  | cons m0 rest =>
    have hvals : ∀ m2 ∈ m0 :: rest, isValidMove b m2.1 m2.2 = true := by
      intro m2 hm2
      exact mem_getRelevantMoves_valid hsafe (hc ▸ hm2)
    unfold getBestMove
    rw [hc]
    simp only [fastLoop_eq ai (m0 :: rest) b hvals]
    cases hfind : (m0 :: rest).find?
        (fun m2 => endsGame b m2 ai.myStone || endsGame b m2 ai.opponentStone) with
    | some m2 => rfl
    | none =>
      simp only []
      rw [orderMoves_frame hvals]
      exact mainLoop_frame ai s _ m0 (-INFINITY_SCORE) b k hsafe
        (fun m2 hm2 => hvals m2 (orderMoves_subset hm2))

/-- C7 (amended): the chosen move is a deterministic function of the
board, the depth budget and the rng state: two calls whose draw streams
agree modulo 10 (the only part `(rng() % 10) - 5` consumes) from the same
starting index return identical results.  Repeated calls, however, resume
at the advanced rng index and may return different moves. -/
theorem getBestMove_rng_mod (ai : AI) (b : Board) (k : Nat) (s1 s2 : Nat → Nat)
    (hs : ∀ i, s1 i % 10 = s2 i % 10) :
    getBestMove ai b s1 k = getBestMove ai b s2 k := by
  unfold getBestMove
  cases hc : getRelevantMoves b 2 with
  | nil => rfl
  | cons m0 rest =>
    simp only []
    rcases hf : fastLoop ai b (m0 :: rest) with ⟨o, b1⟩
    cases o with
    | some m2 => rfl
    | none =>
      simp only []
      exact mainLoop_rng_mod ai hs _ m0 (-INFINITY_SCORE) _ k

/-! ### Counterexamples and witnesses for C1, C2, C7 -/

set_option maxRecDepth 40000 in
set_option maxHeartbeats 2000000 in
/-- C1 counterexample: on `boardTwoFours` (black four at (7,0)-(7,3),
white four at (0,0)-(0,3)) the BLACK engine with depth budget 1 has the
immediately winning candidate (7,4), yet returns (0,4) - the cell that
blocks white's win but creates no black five - because (0,4) precedes
(7,4) in candidate order and the fast path tests win-then-block per
candidate instead of all wins first. -/
theorem getBestMove_win_priority_cex :
    (1 : Int) ≤ aiBlack1.maxDepth
    ∧ ((7, 4) : Pos) ∈ getRelevantMoves boardTwoFours 2
    ∧ checkWin (placeStone boardTwoFours 7 4 Stone.BLACK).2 = GameStatus.BLACK_WIN
    ∧ (getBestMove aiBlack1 boardTwoFours szero 0).1 = (0, 4)
    ∧ checkWin (placeStone boardTwoFours 0 4 Stone.BLACK).2 = GameStatus.ONGOING
    ∧ ((0, 4) : Pos) ≠ (7, 4) := by
  refine ⟨by decide, by decide, by decide, by decide, by decide, by decide⟩

set_option maxRecDepth 40000 in
set_option maxHeartbeats 2000000 in
/-- C1 (amended) witness: on `boardTwoFours` the first candidate at which
either side's placement ends the game is (0,4), and `getBestMove` returns
exactly that cell. -/
theorem getBestMove_first_threat_witness :
    (searchSafe boardTwoFours
     ∧ (getRelevantMoves boardTwoFours 2).find?
         (fun m2 => endsGame boardTwoFours m2 aiBlack1.myStone
           || endsGame boardTwoFours m2 aiBlack1.opponentStone) = some (0, 4))
    ∧ (getBestMove aiBlack1 boardTwoFours szero 0).1 = (0, 4) :=
  ⟨⟨by decide, by decide⟩,
    getBestMove_first_threat aiBlack1 boardTwoFours szero 0 (0, 4) (by decide) (by decide)⟩

set_option maxRecDepth 40000 in
set_option maxHeartbeats 2000000 in
/-- C2 counterexample: `boardDesynced` - obtained through the public API by
placing BLACK at (7,7) and then calling the mismatched `removeStone(0,0)` -
has (7,7) occupied while its move counter is 0.  A `getBestMove` call on it
returns with cell (7,7) cleared: the failed tentative placement is still
"undone", erasing a real stone, so the board is not restored. -/
theorem getBestMove_frame_cex :
    boardDesynced.grid 7 7 = Stone.BLACK
    ∧ (getBestMove aiBlack1 boardDesynced szero 0).2.1.grid 7 7 = Stone.EMPTY := by
  refine ⟨by decide, by decide⟩

/-- C2 (amended) witness: on the one-stone board (counter 1, so the
precondition holds) a full `getBestMove` call returns the board unchanged. -/
theorem getBestMove_frame_witness :
    searchSafe boardOneStone
    ∧ (getBestMove aiBlack1 boardOneStone szero 0).2.1 = boardOneStone :=
  ⟨by decide, getBestMove_frame aiBlack1 boardOneStone szero 0 (by decide)⟩

set_option maxRecDepth 100000 in
set_option maxHeartbeats 4000000 in
/-- C7 counterexample: two successive `getBestMove` calls on the same
board and depth budget disagree.  On `boardOneStone` the eight candidates
score 4, 3, 3, 2, 2, 2, 1, 1, so every descending order puts the unique
score-4 cell (2,2) at position 0 and the two score-3 cells at positions 1
and 2.  With the draw stream `sflip` the first call (rng index 0) adds -5
to every score, so the strict comparison keeps (2,2), and advances the
rng index to 8; the second call, resuming at index 8 exactly as the
mt19937 member does, adds +4 to the candidates at positions 1 and 2 and
-5 elsewhere, so a score-3 cell (here (2,1)) overtakes (2,2).  Each
asserted fact holds under every tie order of the unspecified `std::sort`:
the second call's move differs from the first call's (2,2). -/
theorem getBestMove_determinism_cex :
    (getBestMove aiBlack1 boardOneStone sflip 0).1 = (2, 2)
    ∧ (getBestMove aiBlack1 boardOneStone sflip 0).2.2 = 8
    ∧ (getBestMove aiBlack1 boardOneStone sflip 8).1 ≠ (2, 2) := by
  refine ⟨by decide, by decide, by decide⟩

/-- C7 (amended) witness: the all-zero and the all-ten draw streams agree
modulo 10, so the two calls they drive return identical results. -/
theorem getBestMove_rng_mod_witness :
    (∀ i : Nat, szero i % 10 = sten i % 10)
    ∧ getBestMove aiBlack1 boardOneStone szero 0 = getBestMove aiBlack1 boardOneStone sten 0 :=
  ⟨fun i => by simp [szero, sten], getBestMove_rng_mod aiBlack1 boardOneStone 0 szero sten (fun i => by simp [szero, sten])⟩
